import Mathlib

/-!
Verification of the core text transformation of `carcols_normalizer.py`:
scanning `<Item>...</Item>` blocks (regex `ITEM_RE`), extracting their
`<type>` values (regex `TYPE_RE`), grouping consecutive same-typed blocks
separated by whitespace into runs, rendering four canonical replacement
blocks per run (`build_items`), and splicing the replacements into the text.

Text is modelled as `List Char`.  Positions are `Nat` indices.  The regex
semantics of the two patterns is embedded directly (both patterns are
star-free except for the maximal character-class repetitions, whose
backtracking behaviour is resolved statically as explained at each
definition).  Case conversion models Python `str.upper`/`str.lower` on the
ASCII range, and whitespace models the ASCII part of Python's `\s` class.
-/

set_option maxRecDepth 8192

abbrev Str := List Char

/-- ASCII whitespace as matched by Python's regex class backslash-s and
stripped by str.strip. -/
def isPySpace (c : Char) : Bool :=
  c == ' ' || c == '\t' || c == '\n' || c == '\r' || c == '\x0b' || c == '\x0c'

/-- Characters matched by the `[ \t]*` indent group of `ITEM_RE`. -/
def isSpaceTab (c : Char) : Bool :=
  c == ' ' || c == '\t'

/-- Word characters for the regex word-boundary after `<Item` (ASCII model). -/
def isWordChar (c : Char) : Bool :=
  c.isAlphanum || c == '_'

/-- Case-insensitive character comparison, for the `(?i)` regex flag. -/
def ciEq (a b : Char) : Bool :=
  a.toLower == b.toLower

/-- Case-insensitive equality of two character lists of the same length. -/
def ciListEq : Str → Str → Bool
  | [], [] => true
  | a :: as, b :: bs => ciEq a b && ciListEq as bs
  | _, _ => false

/-- Python str.upper on each character (ASCII model). -/
def pyUpper (s : Str) : Str := s.map Char.toUpper

/-- Python str.strip: remove leading and trailing whitespace. -/
def pyStrip (s : Str) : Str :=
  ((s.dropWhile isPySpace).reverse.dropWhile isPySpace).reverse

/-- Python str.startswith with an exact (case-sensitive) pattern. -/
def leadsWith : Str → Str → Bool
  | [], _ => true
  | _ :: _, [] => false
  | p :: ps, c :: cs => p == c && leadsWith ps cs

/-- Python re.fullmatch of backslash-s-star: every character is whitespace. -/
def allWsB (s : Str) : Bool := s.all isPySpace

/-- Python slicing text[a:b] (clamped at both ends, empty when b ≤ a). -/
def pySlice (text : Str) (a b : Nat) : Str := (text.drop a).take (b - a)

/-- The literal `<Item` of `ITEM_RE` (matched case-insensitively). -/
def openItemPat : Str := "<Item".data

/-- The literal `</Item>` of `ITEM_RE` (matched case-insensitively). -/
def closeItemPat : Str := "</Item>".data

/-- Consume a literal pattern case-insensitively from the front of `s`,
returning the consumed characters and the remainder. -/
def stripCI : Str → Str → Option (Str × Str)
  | [], s => some ([], s)
  | _ :: _, [] => none
  | p :: ps, c :: cs =>
    if ciEq c p then (stripCI ps cs).map (fun x => (c :: x.1, x.2)) else none

/-- The `[^>]*>` part of `ITEM_RE`: split at the first `>` (the class cannot
skip a `>`, so the first `>` closes the opening tag), failing if none exists. -/
def splitGt (s : Str) : Option (Str × Str) :=
  match s.dropWhile (fun c => !(c == '>')) with
  | [] => none
  | _ :: rest => some (s.takeWhile (fun c => !(c == '>')), rest)

/-- The non-greedy `(.*?)</Item>` part of `ITEM_RE`: the inner text runs to
the first case-insensitive occurrence of `</Item>`.  Returns the inner text,
the matched closing tag as written, and the remainder after it. -/
def findClose : Str → Option (Str × Str × Str)
  | [] => none
  | c :: cs =>
    match stripCI closeItemPat (c :: cs) with
    | some (m, r) => some ([], m, r)
    | none => (findClose cs).map (fun x => (c :: x.1, x.2.1, x.2.2))

/-- Word boundary of the regex directly after `<Item` (the previous character
`m` is a word character, so the boundary holds iff the next character is not). -/
def wordBdry : Str → Bool
  | [] => true
  | c :: _ => !(isWordChar c)

/-- One match attempt of `ITEM_RE` at a line-start position: captured indent,
the `[^>]*` attribute text, the captured inner text, and the remainder of the
text after the match. -/
structure MRes where
  indent : Str
  attrs : Str
  inner : Str
  rest : Str
deriving Repr, DecidableEq

/-- Attempt to match `ITEM_RE` with the anchor at the head of `s` (which the
scanner only calls at line starts): `(^[ \t]*)<Item\b[^>]*>(.*?)</Item>`. -/
def tryMatch (s : Str) : Option MRes :=
  match stripCI openItemPat (s.dropWhile isSpaceTab) with
  | none => none
  | some (_, s2) =>
    if wordBdry s2 then
      match splitGt s2 with
      | none => none
      | some (attrs, s3) =>
        match findClose s3 with
        | none => none
        | some (inn, _, rest) => some ⟨s.takeWhile isSpaceTab, attrs, inn, rest⟩
    else none

/-- Length of the text consumed by a successful `ITEM_RE` match. -/
def mlen (r : MRes) : Nat :=
  r.indent.length + openItemPat.length + r.attrs.length + 1 +
    r.inner.length + closeItemPat.length

/-- One match attempt of `TYPE_RE` at the head of `s`:
`(?is)<type>\s*([^<]+)\s*</type>`.  After the literal `<type>`, neither
`\s` nor `[^<]` can match `<` and the closing literal starts with `<`, so
the segment between the tags is exactly the text up to the first `<`; the
greedy `\s*` then yields to the mandatory `[^<]+` exactly one character when
the segment is all whitespace. -/
def tryType (s : Str) : Option Str :=
  match stripCI "<type>".data s with
  | none => none
  | some (_, s1) =>
    let seg := s1.takeWhile (fun c => !(c == '<'))
    if seg.isEmpty then none
    else
      match stripCI "</type>".data (s1.dropWhile (fun c => !(c == '<'))) with
      | none => none
      | some _ =>
        some (seg.drop (min (seg.takeWhile isPySpace).length (seg.length - 1)))

/-- Python re.search for `TYPE_RE`: first position where a match succeeds. -/
def typeSearch : Str → Option Str
  | [] => none
  | c :: cs =>
    match tryType (c :: cs) with
    | some g => some g
    | none => typeSearch cs

/-- A scanned `<Item>` block: span, captured indentation, and the stripped
`<type>` value if `TYPE_RE` finds one (mirrors the tuples of scan_items). -/
structure Item where
  start : Nat
  stop : Nat
  indent : Str
  vtype : Option Str
deriving Repr, DecidableEq

/-- The finditer loop of scan_items: advance one character at a time,
attempting an `ITEM_RE` match exactly at line starts (the `^` anchor of the
pattern); after a successful match, resume at the match end.  `fuel` bounds
the recursion and is sufficient whenever `s.length ≤ fuel`. -/
def scanAux : Nat → Str → Nat → Bool → List Item
  | 0, _, _, _ => []
  | _ + 1, [], _, _ => []
  | fuel + 1, c :: cs, pos, atLS =>
    if atLS then
      match tryMatch (c :: cs) with
      | some r =>
        ⟨pos, pos + mlen r, r.indent, (typeSearch r.inner).map pyStrip⟩ ::
          scanAux fuel r.rest (pos + mlen r) false
      | none => scanAux fuel cs (pos + 1) (c == '\n')
    else scanAux fuel cs (pos + 1) (c == '\n')

/-- scan_items: all `ITEM_RE` matches of the text, with the stripped first
`TYPE_RE` value of each match's inner text. -/
def scan_items (text : Str) : List Item :=
  scanAux text.length text 0 true

/-- The allow-list `targets` of main: VMT_GEARBOX, VMT_BRAKES, VMT_ENGINE. -/
def inTargets (v : Str) : Bool :=
  v == "VMT_GEARBOX".data || v == "VMT_BRAKES".data || v == "VMT_ENGINE".data

/-- The two skip tests at the head of main's grouping loop: a block is kept
iff its type is truthy, its upper-cased type starts with `VMT_`, and (unless
`--any` is given) the upper-cased type is in the allow-list. -/
def qualifies (anyFlag : Bool) : Option Str → Bool
  | none => false
  | some v => !v.isEmpty && leadsWith "VMT_".data (pyUpper v) && (anyFlag || inTargets (pyUpper v))

/-- The extension test of main's inner grouping loop for the candidate block
`b` when the run so far has type `vt` and ends at `ge`: the candidate's type
is truthy, equals `vt` once stripped and upper-cased, and the text strictly
between `ge` and the candidate's start is all whitespace. -/
def extendCond (text : Str) (vt : Str) (ge : Nat) (b : Item) : Bool :=
  match b.vtype with
  | none => false
  | some t2 => !t2.isEmpty && pyUpper (pyStrip t2) == vt && allWsB (pySlice text ge b.start)

/-- main's inner grouping loop: greedily extend the run end `ge` over the
remaining blocks while `extendCond` holds, returning the final run end and
the unconsumed blocks. -/
def extendRun (text : Str) (vt : Str) (ge : Nat) : List Item → Nat × List Item
  | [] => (ge, [])
  | b :: rest =>
    if extendCond text vt ge b then extendRun text vt b.stop rest
    else (ge, b :: rest)

/-- A run to be replaced, as appended to main's `groups` list: its span, the
indentation of its first block, and the shared upper-cased type. -/
structure Run where
  start : Nat
  stop : Nat
  indent : Str
  vtype : Str
deriving Repr, DecidableEq

/-- main's outer grouping loop: skip non-qualifying blocks; from each
qualifying block, extend a run with `extendRun` and continue after the
blocks it consumed.  `fuel` bounds the recursion and is sufficient whenever
the list length is at most `fuel`. -/
def groupAux (text : Str) (anyFlag : Bool) : Nat → List Item → List Run
  | 0, _ => []
  | _ + 1, [] => []
  | fuel + 1, it :: rest =>
    if qualifies anyFlag it.vtype then
      let vt := pyUpper (it.vtype.getD [])
      let p := extendRun text vt it.stop rest
      ⟨it.start, p.1, it.indent, vt⟩ :: groupAux text anyFlag fuel p.2
    else groupAux text anyFlag fuel rest

/-- The runs (main's `groups`) computed from a scanned block list. -/
def groupRuns (text : Str) (anyFlag : Bool) (items : List Item) : List Run :=
  groupAux text anyFlag items.length items

/-- One rendered `<Item>` block of build_items for one modifier value:
the seven f-string lines of the source, concatenated. -/
def itemTemplate (indent : Str) (vtype : Str) (val : Nat) : Str :=
  (indent ++ "<Item>\n".data) ++
  (indent ++ "  <identifier />\n".data) ++
  (indent ++ "  <modifier value=\"".data ++ (Nat.repr val).data ++ "\" />\n".data) ++
  (indent ++ "  <audioApply value=\"1.000000\" />\n".data) ++
  (indent ++ "  <weight value=\"0\" />\n".data) ++
  (indent ++ "  <type>".data ++ vtype ++ "</type>\n".data) ++
  (indent ++ "</Item>\n".data)

/-- build_items: four standardized blocks with modifiers 25/50/75/100. -/
def build_items (indent : Str) (vtype : Str) : Str :=
  (([25, 50, 75, 100] : List Nat).map (itemTemplate indent vtype)).flatten

/-- main's replacement loop: copy the text before each run, emit the rendered
blocks for the run, and continue from the run's end; finally copy the tail. -/
def spliceAux (text : Str) (pos : Nat) : List Run → Str
  | [] => text.drop pos
  | r :: rs =>
    pySlice text pos r.start ++ build_items r.indent r.vtype ++ spliceAux text r.stop rs

/-- The new text main assembles from the original text and the runs. -/
def applyGroups (text : Str) (runs : List Run) : Str :=
  spliceAux text 0 runs

/-- The core per-file transformation of main: scan, group, render and splice,
returning the new text and the number of replaced runs.  When no run is
found main leaves the file untouched, and correspondingly the returned text
equals the input. -/
def normalizeText (anyFlag : Bool) (text : Str) : Str × Nat :=
  let items := scan_items text
  let groups := groupRuns text anyFlag items
  (applyGroups text groups, groups.length)

/-! ### Decomposition lemmas for the regex embedding -/

theorem stripCI_sound :
    ∀ (pat s m r : Str), stripCI pat s = some (m, r) →
      s = m ++ r ∧ m.length = pat.length ∧ ciListEq m pat = true := by
  intro pat
  induction pat with
  | nil =>
    intro s m r h
    simp only [stripCI, Option.some.injEq, Prod.mk.injEq] at h
    obtain ⟨h1, h2⟩ := h
    subst h1; subst h2
    simp [ciListEq]
  | cons p ps ih =>
    intro s m r h
    cases s with
    | nil => simp [stripCI] at h
    | cons c cs =>
      simp only [stripCI] at h
      by_cases hc : ciEq c p = true
      · rw [if_pos hc] at h
        cases hx : stripCI ps cs with
        | none => rw [hx] at h; simp at h
        | some x =>
          rw [hx] at h
          simp only [Option.map_some', Option.some.injEq, Prod.mk.injEq] at h
          obtain ⟨h1, h2⟩ := h
          obtain ⟨heq, hlen, hci⟩ := ih cs x.1 x.2 (by rw [hx])
          subst h1; subst h2
          refine ⟨by simp [heq], by simp [hlen], ?_⟩
          simp [ciListEq, hc, hci]
      · rw [if_neg hc] at h
        exact absurd h (by simp)

theorem splitGt_sound (s attrs rest : Str) (h : splitGt s = some (attrs, rest)) :
    s = attrs ++ '>' :: rest ∧ attrs = s.takeWhile (fun c => !(c == '>')) := by
  unfold splitGt at h
  cases hd : s.dropWhile (fun c => !(c == '>')) with
  | nil => rw [hd] at h; simp at h
  | cons g tl =>
    rw [hd] at h
    simp only [Option.some.injEq, Prod.mk.injEq] at h
    obtain ⟨h1, h2⟩ := h
    have hg : (fun c => !(c == '>')) g = false := by
      have := List.head_dropWhile_not (fun c => !(c == '>')) (l := s)
      rw [hd] at this
      simpa using this (by simp)
    have hg' : g = '>' := by simpa using hg
    subst h2; subst hg'
    have hw := List.takeWhile_append_dropWhile (fun c => !(c == '>')) s
    rw [hd] at hw
    subst h1
    exact ⟨hw.symm, rfl⟩

theorem findClose_sound :
    ∀ (s inn m r : Str), findClose s = some (inn, m, r) →
      s = inn ++ m ++ r ∧ m.length = closeItemPat.length ∧ ciListEq m closeItemPat = true := by
  intro s
  induction s with
  | nil => intro inn m r h; simp [findClose] at h
  | cons c cs ih =>
    intro inn m r h
    simp only [findClose] at h
    cases hx : stripCI closeItemPat (c :: cs) with
    | some x =>
      rw [hx] at h
      simp only [Option.some.injEq, Prod.mk.injEq] at h
      obtain ⟨h1, h2, h3⟩ := h
      obtain ⟨heq, hlen, hci⟩ := stripCI_sound _ _ x.1 x.2 (by rw [hx])
      subst h1; subst h2; subst h3
      exact ⟨by simpa using heq, hlen, hci⟩
    | none =>
      rw [hx] at h
      cases hy : findClose cs with
      | none => rw [hy] at h; simp at h
      | some y =>
        rw [hy] at h
        simp only [Option.map_some', Option.some.injEq, Prod.mk.injEq] at h
        obtain ⟨h1, h2, h3⟩ := h
        obtain ⟨heq, hlen, hci⟩ := ih y.1 y.2.1 y.2.2 (by rw [hy])
        subst h1; subst h2; subst h3
        refine ⟨?_, hlen, hci⟩
        simp [heq]

theorem tryMatch_sound (s : Str) (r : MRes) (h : tryMatch s = some r) :
    ∃ o5 c7, s = r.indent ++ o5 ++ r.attrs ++ '>' :: (r.inner ++ c7 ++ r.rest) ∧
      o5.length = openItemPat.length ∧ ciListEq o5 openItemPat = true ∧
      c7.length = closeItemPat.length ∧ ciListEq c7 closeItemPat = true ∧
      r.indent = s.takeWhile isSpaceTab := by
  unfold tryMatch at h
  cases h1 : stripCI openItemPat (s.dropWhile isSpaceTab) with
  | none => rw [h1] at h; exact absurd h (by simp)
  | some p1 =>
    obtain ⟨o5, s2⟩ := p1
    rw [h1] at h
    simp only [] at h
    by_cases hb : wordBdry s2 = true
    · rw [if_pos hb] at h
      cases h2 : splitGt s2 with
      | none => rw [h2] at h; exact absurd h (by simp)
      | some p2 =>
        obtain ⟨attrs, s3⟩ := p2
        rw [h2] at h
        simp only [] at h
        cases h3 : findClose s3 with
        | none => rw [h3] at h; exact absurd h (by simp)
        | some p3 =>
          obtain ⟨inn, c7, rest⟩ := p3
          rw [h3] at h
          simp only [Option.some.injEq] at h
          obtain ⟨e1, l1, c1⟩ := stripCI_sound _ _ o5 s2 h1
          obtain ⟨e2, a2⟩ := splitGt_sound s2 attrs s3 h2
          obtain ⟨e3, l3, c3⟩ := findClose_sound s3 inn c7 rest h3
          refine ⟨o5, c7, ?_, l1, c1, l3, c3, ?_⟩
          · rw [← h]
            calc s = s.takeWhile isSpaceTab ++ s.dropWhile isSpaceTab :=
                  (List.takeWhile_append_dropWhile isSpaceTab s).symm
              _ = s.takeWhile isSpaceTab ++ (o5 ++ s2) := by rw [← e1]
              _ = s.takeWhile isSpaceTab ++ (o5 ++ (attrs ++ '>' :: s3)) := by rw [← e2]
              _ = s.takeWhile isSpaceTab ++ (o5 ++ (attrs ++ '>' :: (inn ++ c7 ++ rest))) := by
                  rw [← e3]
              _ = _ := by simp
          · rw [← h]
    · rw [if_neg hb] at h
      exact absurd h (by simp)

theorem tryMatch_len (s : Str) (r : MRes) (h : tryMatch s = some r) :
    s.length = mlen r + r.rest.length := by
  obtain ⟨o5, c7, he, l1, _, l3, _, _⟩ := tryMatch_sound s r h
  rw [he, mlen]
  simp [l1, l3]
  omega

theorem tryMatch_indent_ws (s : Str) (r : MRes) (h : tryMatch s = some r) :
    ∀ c ∈ r.indent, isSpaceTab c = true := by
  obtain ⟨_, _, _, _, _, _, _, hind⟩ := tryMatch_sound s r h
  intro c hc
  rw [hind] at hc
  exact List.mem_takeWhile_imp hc

theorem mlen_pos (r : MRes) : 13 ≤ mlen r := by
  rw [mlen]
  simp [openItemPat, closeItemPat]
  omega

/-! ### Properties of pyStrip and typeSearch -/

theorem dropWhile_head_not (p : Char → Bool) (l : Str) (c : Char) (tl : Str)
    (h : l.dropWhile p = c :: tl) : p c = false := by
  have := List.head_dropWhile_not p (l := l)
  rw [h] at this
  simpa using this (by simp)

theorem dropWhile_idem (p : Char → Bool) (l : Str) :
    (l.dropWhile p).dropWhile p = l.dropWhile p := by
  cases hd : l.dropWhile p with
  | nil => simp
  | cons c tl =>
    rw [List.dropWhile_cons, dropWhile_head_not p l c tl hd]
    simp

theorem dropWhile_head?_not (p : Char → Bool) (l : Str) (c : Char)
    (h : (l.dropWhile p).head? = some c) : p c = false := by
  cases hd : l.dropWhile p with
  | nil => rw [hd] at h; simp at h
  | cons b tl =>
    rw [hd] at h
    simp only [List.head?_cons, Option.some.injEq] at h
    rw [← h]
    exact dropWhile_head_not p l b tl hd

theorem pyStrip_idem (s : Str) : pyStrip (pyStrip s) = pyStrip s := by
  unfold pyStrip
  have step1 :
      ((((s.dropWhile isPySpace).reverse.dropWhile isPySpace).reverse).dropWhile isPySpace) =
        ((s.dropWhile isPySpace).reverse.dropWhile isPySpace).reverse := by
    cases hh : (((s.dropWhile isPySpace).reverse.dropWhile isPySpace).reverse).head? with
    | none =>
      rw [List.head?_eq_none_iff] at hh
      rw [hh]
      simp
    | some c =>
      have hc : isPySpace c = false := by
        rw [List.head?_reverse] at hh
        have hBne : (s.dropWhile isPySpace).reverse.dropWhile isPySpace ≠ [] := by
          intro hB
          rw [hB] at hh
          simp at hh
        obtain ⟨pre, hpre⟩ := List.dropWhile_suffix (l := (s.dropWhile isPySpace).reverse) isPySpace
        have hlast : ((s.dropWhile isPySpace).reverse.dropWhile isPySpace).getLast? =
            (s.dropWhile isPySpace).reverse.getLast? := by
          conv_rhs => rw [← hpre]
          exact (List.getLast?_append_of_ne_nil pre hBne).symm
        rw [hlast, List.getLast?_reverse] at hh
        exact dropWhile_head?_not isPySpace s c hh
      cases hl : (((s.dropWhile isPySpace).reverse.dropWhile isPySpace).reverse) with
      | nil => simp
      | cons b tl =>
        rw [hl] at hh
        simp only [List.head?_cons, Option.some.injEq] at hh
        subst hh
        rw [List.dropWhile_cons, hc]
        simp
  rw [step1, List.reverse_reverse, dropWhile_idem]

theorem pyStrip_subset (s : Str) (c : Char) (h : c ∈ pyStrip s) : c ∈ s := by
  unfold pyStrip at h
  rw [List.mem_reverse] at h
  have h1 := (List.dropWhile_sublist (l := (s.dropWhile isPySpace).reverse) isPySpace).subset h
  rw [List.mem_reverse] at h1
  exact (List.dropWhile_sublist isPySpace).subset h1

theorem tryType_no_lt (s g : Str) (h : tryType s = some g) :
    ∀ c ∈ g, c ≠ '<' := by
  unfold tryType at h
  cases h1 : stripCI "<type>".data s with
  | none => rw [h1] at h; exact absurd h (by simp)
  | some p1 =>
    obtain ⟨m1, s1⟩ := p1
    rw [h1] at h
    simp only [] at h
    by_cases he : (s1.takeWhile (fun c => !(c == '<'))).isEmpty = true
    · rw [if_pos he] at h; exact absurd h (by simp)
    · rw [if_neg he] at h
      cases h2 : stripCI "</type>".data (s1.dropWhile (fun c => !(c == '<'))) with
      | none => rw [h2] at h; exact absurd h (by simp)
      | some p2 =>
        rw [h2] at h
        simp only [Option.some.injEq] at h
        intro c hc
        rw [← h] at hc
        have hc2 := (List.drop_sublist _ _).subset hc
        have := List.mem_takeWhile_imp hc2
        simpa using this

theorem typeSearch_no_lt (s g : Str) (h : typeSearch s = some g) :
    ∀ c ∈ g, c ≠ '<' := by
  induction s with
  | nil => simp [typeSearch] at h
  | cons c cs ih =>
    simp only [typeSearch] at h
    cases h1 : tryType (c :: cs) with
    | some g1 =>
      rw [h1] at h
      simp only [Option.some.injEq] at h
      subst h
      exact tryType_no_lt _ _ h1
    | none =>
      rw [h1] at h
      exact ih h

/-! ### The scanner invariant -/

/-- Position `p` is a line start of `text`: the start of the text or a
position directly after a newline (where the `^` anchor of `ITEM_RE` with
the multiline flag can match). -/
def lineStart (text : Str) (p : Nat) : Prop :=
  p = 0 ∨ text[p - 1]? = some '\n'

/-- Everything a scanned block guarantees about its own shape: the span is
at least as long as `<Item></Item>`, the captured indent is the spaces-and-
tabs text at the block start, the block starts at a line start, the opening
tag `<Item` follows the indent, the closing tag `</Item>` ends the span, and
a present type value is already stripped and free of `<`. -/
def ItemOK (text : Str) (b : Item) : Prop :=
  b.start + 13 ≤ b.stop ∧
  (∀ c ∈ b.indent, isSpaceTab c = true) ∧
  pySlice text b.start (b.start + b.indent.length) = b.indent ∧
  lineStart text b.start ∧
  ciListEq (pySlice text (b.start + b.indent.length) (b.start + b.indent.length + 5))
    openItemPat = true ∧
  ciListEq (pySlice text (b.stop - 7) b.stop) closeItemPat = true ∧
  (∀ t, b.vtype = some t → pyStrip t = t ∧ ∀ c ∈ t, c ≠ '<')

/-- The blocks are in document order starting at or after `pos`, pairwise
non-overlapping, with nonempty spans that end within the text. -/
def ItemsSorted (len : Nat) : Nat → List Item → Prop
  | _, [] => True
  | pos, b :: rest =>
    pos ≤ b.start ∧ b.start + 13 ≤ b.stop ∧ b.stop ≤ len ∧ ItemsSorted len b.stop rest

theorem ItemsSorted_mono (len : Nat) (pos pos' : Nat) (l : List Item)
    (h : ItemsSorted len pos' l) (hle : pos ≤ pos') : ItemsSorted len pos l := by
  cases l with
  | nil => trivial
  | cons b rest =>
    obtain ⟨h1, h2, h3, h4⟩ := h
    exact ⟨Nat.le_trans hle h1, h2, h3, h4⟩

theorem pySlice_of_drop (text : Str) (pos a b : Nat) (P Q R : Str)
    (h : text.drop pos = P ++ (Q ++ R)) (ha : a = pos + P.length)
    (hb : b = pos + P.length + Q.length) : pySlice text a b = Q := by
  subst ha; subst hb
  unfold pySlice
  have h1 : text.drop (pos + P.length) = Q ++ R := by
    rw [← List.drop_drop, h, List.drop_left]
  rw [h1]
  have h2 : pos + P.length + Q.length - (pos + P.length) = Q.length := by omega
  rw [h2, List.take_left]

theorem openItemPat_len : openItemPat.length = 5 := by decide

theorem closeItemPat_len : closeItemPat.length = 7 := by decide

theorem scanAux_ok (text : Str) :
    ∀ fuel s pos atLS, s = text.drop pos → pos ≤ text.length → s.length ≤ fuel →
      (atLS = true → lineStart text pos) →
      ItemsSorted text.length pos (scanAux fuel s pos atLS) ∧
        ∀ b ∈ scanAux fuel s pos atLS, ItemOK text b := by
  intro fuel
  induction fuel with
  | zero => intro s pos atLS _ _ _ _; simp [scanAux, ItemsSorted]
  | succ fuel ih =>
    intro s pos atLS hs hpos hlen hls
    cases s with
    | nil => simp [scanAux, ItemsSorted]
    | cons c cs =>
      have hposlt : pos < text.length := by
        by_contra hge
        push_neg at hge
        have hnil : text.drop pos = [] := by
          rw [List.drop_eq_nil_iff]
          omega
        rw [hnil] at hs
        exact absurd hs (by simp)
      have hdrop1 : text.drop (pos + 1) = cs := by
        rw [← List.drop_drop 1 pos text, ← hs]
        rfl
      have hheadc : text[pos]? = some c := by
        have hgd := List.getElem?_drop text pos 0
        rw [← hs] at hgd
        simpa using hgd.symm
      have hnl : ((c == '\n') = true → lineStart text (pos + 1)) := by
        intro hceq
        right
        simp only [Nat.add_sub_cancel]
        rw [hheadc]
        exact congrArg some (eq_of_beq hceq)
      have hlen1 : cs.length ≤ fuel := by
        simp only [List.length_cons] at hlen
        omega
      have hskip : ItemsSorted text.length (pos + 1) (scanAux fuel cs (pos + 1) (c == '\n')) ∧
          ∀ b ∈ scanAux fuel cs (pos + 1) (c == '\n'), ItemOK text b :=
        ih cs (pos + 1) (c == '\n') hdrop1.symm hposlt hlen1 hnl
      by_cases hat : atLS = true
      · rw [hat]
        cases hm : tryMatch (c :: cs) with
        | none =>
          simp only [scanAux, hm, if_true]
          exact ⟨ItemsSorted_mono _ pos (pos + 1) _ hskip.1 (by omega), hskip.2⟩
        | some r =>
          simp only [scanAux, hm, if_true]
          obtain ⟨o5, c7, he, l1, c1, l3, c3, hind⟩ := tryMatch_sound (c :: cs) r hm
          rw [openItemPat_len] at l1
          rw [closeItemPat_len] at l3
          have hs' : text.drop pos =
              r.indent ++ o5 ++ r.attrs ++ '>' :: (r.inner ++ c7 ++ r.rest) := by
            rw [← hs, he]
          have htot : (c :: cs).length = mlen r + r.rest.length := tryMatch_len _ _ hm
          have hdlen : (c :: cs).length = text.length - pos := by
            rw [hs, List.length_drop]
          have hstople : pos + mlen r ≤ text.length := by omega
          have hmpos : 13 ≤ mlen r := mlen_pos r
          have hmlen : mlen r =
              r.indent.length + 5 + r.attrs.length + 1 + r.inner.length + 7 := by
            rw [mlen, openItemPat_len, closeItemPat_len]
          have hdropL : text.drop (pos + mlen r) = r.rest := by
            have hP0 : text.drop pos =
                (r.indent ++ o5 ++ r.attrs ++ '>' :: r.inner ++ c7) ++ r.rest := by
              rw [hs']
              simp [List.append_assoc]
            have hP0len : (r.indent ++ o5 ++ r.attrs ++ '>' :: r.inner ++ c7).length =
                mlen r := by
              simp [l1, l3, hmlen]
              omega
            rw [← List.drop_drop (mlen r) pos text, hP0, ← hP0len, List.drop_left]
          have hrlen : r.rest.length ≤ fuel := by
            have h1 : cs.length + 1 = mlen r + r.rest.length := by simpa using htot
            omega
          have hrec := ih r.rest (pos + mlen r) false hdropL.symm hstople hrlen
            (by intro hf; exact absurd hf (by simp))
          constructor
          · exact ⟨Nat.le_refl pos, by show pos + 13 ≤ pos + mlen r; omega, hstople, hrec.1⟩
          · intro b hb
            rcases List.mem_cons.mp hb with hbh | hbt
            · subst hbh
              refine ⟨by show pos + 13 ≤ pos + mlen r; omega,
                tryMatch_indent_ws _ _ hm, ?_, hls hat, ?_, ?_, ?_⟩
              · exact pySlice_of_drop text pos _ _ [] r.indent
                  (o5 ++ r.attrs ++ '>' :: (r.inner ++ c7 ++ r.rest))
                  (by rw [hs']; simp [List.append_assoc]) (by simp) (by simp)
              · have hsl : pySlice text (pos + r.indent.length)
                    (pos + r.indent.length + 5) = o5 := by
                  refine pySlice_of_drop text pos _ _ r.indent o5
                    (r.attrs ++ '>' :: (r.inner ++ c7 ++ r.rest))
                    (by rw [hs']; simp [List.append_assoc]) rfl (by omega)
                simpa [hsl] using c1
              · have hsl : pySlice text (pos + mlen r - 7) (pos + mlen r) = c7 := by
                  refine pySlice_of_drop text pos _ _
                    (r.indent ++ o5 ++ r.attrs ++ '>' :: r.inner) c7 r.rest
                    (by rw [hs']; simp [List.append_assoc]) ?_ ?_
                  · simp [l1]
                    omega
                  · simp [l1, l3]
                    omega
                simpa [hsl] using c3
              · intro t ht
                simp only at ht
                cases hts : typeSearch r.inner with
                | none => rw [hts] at ht; exact absurd ht (by simp)
                | some g =>
                  rw [hts] at ht
                  simp only [Option.map_some', Option.some.injEq] at ht
                  subst ht
                  refine ⟨pyStrip_idem g, ?_⟩
                  intro ch hch
                  exact typeSearch_no_lt r.inner g hts ch (pyStrip_subset g ch hch)
            · exact hrec.2 b hbt
      · have hat' : atLS = false := by
          cases atLS
          · rfl
          · exact absurd rfl hat
        rw [hat']
        simp only [scanAux, if_neg (by simp : ¬false = true)]
        exact ⟨ItemsSorted_mono _ pos (pos + 1) _ hskip.1 (by omega), hskip.2⟩

/-- The scanner invariant at the top level. -/
theorem scan_items_ok (text : Str) :
    ItemsSorted text.length 0 (scan_items text) ∧
      ∀ b ∈ scan_items text, ItemOK text b := by
  unfold scan_items
  exact scanAux_ok text text.length text 0 true rfl (by omega) (by omega)
    (fun _ => Or.inl rfl)

/-! ### Invariants of the grouping loop -/

/-- The runs are in document order starting at or after `pos`, pairwise
non-overlapping, with spans inside the text (Boolean form). -/
def RunsSortedB (len : Nat) : Nat → List Run → Bool
  | _, [] => true
  | pos, r :: rs =>
    decide (pos ≤ r.start) && decide (r.start ≤ r.stop) && decide (r.stop ≤ len) &&
      RunsSortedB len r.stop rs

theorem extendRun_stop_src (text vt : Str) :
    ∀ (l : List Item) (ge : Nat),
      (extendRun text vt ge l).1 = ge ∨ ∃ b ∈ l, (extendRun text vt ge l).1 = b.stop := by
  intro l
  induction l with
  | nil => intro ge; left; rfl
  | cons b rest ih =>
    intro ge
    by_cases hc : extendCond text vt ge b = true
    · rcases ih b.stop with h | ⟨b', hb', he⟩
      · right
        exact ⟨b, List.mem_cons_self b rest, by simp [extendRun, hc, h]⟩
      · right
        exact ⟨b', List.mem_cons_of_mem b hb', by simp [extendRun, hc, he]⟩
    · left
      simp [extendRun, hc]

theorem extendRun_rest_sub (text vt : Str) :
    ∀ (l : List Item) (ge : Nat) (b : Item),
      b ∈ (extendRun text vt ge l).2 → b ∈ l := by
  intro l
  induction l with
  | nil => intro ge b hb; simp [extendRun] at hb
  | cons a rest ih =>
    intro ge b hb
    by_cases hc : extendCond text vt ge a = true
    · simp only [extendRun, hc, if_true] at hb
      exact List.mem_cons_of_mem a (ih a.stop b hb)
    · simp only [extendRun, hc, if_false] at hb
      exact hb

theorem extendRun_rest_len (text vt : Str) :
    ∀ (l : List Item) (ge : Nat),
      (extendRun text vt ge l).2.length ≤ l.length := by
  intro l
  induction l with
  | nil => intro ge; simp [extendRun]
  | cons a rest ih =>
    intro ge
    by_cases hc : extendCond text vt ge a = true
    · simp only [extendRun, hc, if_true]
      exact Nat.le_trans (ih a.stop) (by simp)
    · simp only [extendRun, hc, if_false]
      exact Nat.le_refl _

theorem extendRun_sorted (text vt : Str) (len : Nat) :
    ∀ (l : List Item) (ge : Nat), ItemsSorted len ge l → ge ≤ len →
      ge ≤ (extendRun text vt ge l).1 ∧ (extendRun text vt ge l).1 ≤ len ∧
        ItemsSorted len (extendRun text vt ge l).1 (extendRun text vt ge l).2 := by
  intro l
  induction l with
  | nil => intro ge _ hge; exact ⟨Nat.le_refl _, hge, trivial⟩
  | cons a rest ih =>
    intro ge hsort hge
    obtain ⟨h1, h2, h3, h4⟩ := hsort
    by_cases hc : extendCond text vt ge a = true
    · simp only [extendRun, hc, if_true]
      obtain ⟨g1, g2, g3⟩ := ih a.stop h4 h3
      exact ⟨Nat.le_trans (by omega) g1, g2, g3⟩
    · simp only [extendRun, hc, if_false]
      exact ⟨Nat.le_refl _, hge, h1, h2, h3, h4⟩

theorem groupAux_sorted (text : Str) (anyFlag : Bool) (len : Nat) :
    ∀ (fuel : Nat) (l : List Item) (pos : Nat), l.length ≤ fuel →
      ItemsSorted len pos l → pos ≤ len →
      RunsSortedB len pos (groupAux text anyFlag fuel l) = true := by
  intro fuel
  induction fuel with
  | zero => intro l pos _ _ _; simp [groupAux, RunsSortedB]
  | succ fuel ih =>
    intro l pos hlen hsort hpos
    cases l with
    | nil => simp [groupAux, RunsSortedB]
    | cons it rest =>
      obtain ⟨h1, h2, h3, h4⟩ := hsort
      simp only [List.length_cons] at hlen
      by_cases hq : qualifies anyFlag it.vtype = true
      · simp only [groupAux, hq, if_true]
        obtain ⟨g1, g2, g3⟩ :=
          extendRun_sorted text (pyUpper (it.vtype.getD [])) len rest it.stop h4 h3
        have hrl : (extendRun text (pyUpper (it.vtype.getD [])) it.stop rest).2.length ≤ fuel :=
          Nat.le_trans (extendRun_rest_len _ _ rest it.stop) (by omega)
        rw [RunsSortedB]
        simp only [Bool.and_eq_true, decide_eq_true_eq]
        exact ⟨⟨⟨h1, by show it.start ≤ _; omega⟩, g2⟩, ih _ _ hrl g3 g2⟩
      · simp only [groupAux, hq, if_false]
        exact ih rest pos (by omega) (ItemsSorted_mono len pos it.stop rest h4 (by omega)) hpos

theorem groupAux_provenance (text : Str) (anyFlag : Bool) :
    ∀ (fuel : Nat) (l : List Item) (r : Run), r ∈ groupAux text anyFlag fuel l →
      (∃ it ∈ l, it.start = r.start ∧ it.indent = r.indent ∧
        qualifies anyFlag it.vtype = true ∧
        ∃ t, it.vtype = some t ∧ r.vtype = pyUpper t) ∧
      (∃ it2 ∈ l, r.stop = it2.stop) := by
  intro fuel
  induction fuel with
  | zero => intro l r hr; simp [groupAux] at hr
  | succ fuel ih =>
    intro l r hr
    cases l with
    | nil => simp [groupAux] at hr
    | cons it rest =>
      by_cases hq : qualifies anyFlag it.vtype = true
      · simp only [groupAux, hq, if_true] at hr
        rcases List.mem_cons.mp hr with hrh | hrt
        · subst hrh
          constructor
          · refine ⟨it, List.mem_cons_self it rest, rfl, rfl, hq, ?_⟩
            cases hv : it.vtype with
            | none => rw [hv] at hq; simp [qualifies] at hq
            | some t => exact ⟨t, rfl, by simp [hv]⟩
          · rcases extendRun_stop_src text (pyUpper (it.vtype.getD [])) rest it.stop with
              hst | ⟨b, hb, hst⟩
            · exact ⟨it, List.mem_cons_self it rest, hst⟩
            · exact ⟨b, List.mem_cons_of_mem it hb, hst⟩
        · obtain ⟨⟨it', hit', hp⟩, ⟨it2, hit2, hp2⟩⟩ := ih _ r hrt
          exact ⟨⟨it', List.mem_cons_of_mem it (extendRun_rest_sub _ _ rest it.stop it' hit'), hp⟩,
            ⟨it2, List.mem_cons_of_mem it (extendRun_rest_sub _ _ rest it.stop it2 hit2), hp2⟩⟩
      · simp only [groupAux, hq, if_false] at hr
        obtain ⟨⟨it', hit', hp⟩, ⟨it2, hit2, hp2⟩⟩ := ih rest r hr
        exact ⟨⟨it', List.mem_cons_of_mem it hit', hp⟩,
          ⟨it2, List.mem_cons_of_mem it hit2, hp2⟩⟩

/-! ### The splice: preservation of non-replaced regions -/

/-- Position `i` lies outside every replaced span. -/
def outsideB (runs : List Run) (i : Nat) : Bool :=
  runs.all (fun r => decide (i < r.start) || decide (r.stop ≤ i))

/-- Where an input position `i` outside every span lands in the spliced
output, when splicing starts from input position `pos`. -/
def spliceIdx (pos : Nat) : List Run → Nat → Nat
  | [], i => i - pos
  | r :: rs, i =>
    if i < r.start then i - pos
    else (r.start - pos) + (build_items r.indent r.vtype).length + spliceIdx r.stop rs i

theorem pySlice_length (text : Str) (a b : Nat) (hb : b ≤ text.length) :
    (pySlice text a b).length = b - a := by
  simp [pySlice]
  omega

theorem spliceAux_frame (text : Str) :
    ∀ (runs : List Run) (pos i : Nat),
      RunsSortedB text.length pos runs = true → pos ≤ i → i < text.length →
      outsideB runs i = true →
      (spliceAux text pos runs)[spliceIdx pos runs i]? = text[i]? := by
  intro runs
  induction runs with
  | nil =>
    intro pos i _ hpi _ _
    show (text.drop pos)[i - pos]? = text[i]?
    rw [List.getElem?_drop]
    congr 1
    omega
  | cons r rs ih =>
    intro pos i hsort hpi hilen hout
    rw [RunsSortedB] at hsort
    simp only [Bool.and_eq_true, decide_eq_true_eq] at hsort
    obtain ⟨⟨⟨hps, hss⟩, hsl⟩, hrest⟩ := hsort
    rw [outsideB] at hout
    simp only [List.all_cons, Bool.and_eq_true, Bool.or_eq_true, decide_eq_true_eq] at hout
    obtain ⟨hhead, htail⟩ := hout
    have hAlen : (pySlice text pos r.start).length = r.start - pos :=
      pySlice_length text pos r.start (by omega)
    by_cases hlt : i < r.start
    · show ((pySlice text pos r.start ++ build_items r.indent r.vtype) ++
        spliceAux text r.stop rs)[spliceIdx pos (r :: rs) i]? = text[i]?
      have hidx : spliceIdx pos (r :: rs) i = i - pos := by
        simp [spliceIdx, hlt]
      rw [hidx]
      rw [List.getElem?_append]
      rw [if_pos (by simp [hAlen]; omega)]
      rw [List.getElem?_append]
      rw [if_pos (by rw [hAlen]; omega)]
      show ((text.drop pos).take (r.start - pos))[i - pos]? = text[i]?
      rw [List.getElem?_take]
      rw [if_pos (by omega), List.getElem?_drop]
      congr 1
      omega
    · have hstop : r.stop ≤ i := by
        rcases hhead with h | h
        · exact absurd h hlt
        · exact h
      show ((pySlice text pos r.start ++ build_items r.indent r.vtype) ++
        spliceAux text r.stop rs)[spliceIdx pos (r :: rs) i]? = text[i]?
      have hidx : spliceIdx pos (r :: rs) i =
          (r.start - pos) + (build_items r.indent r.vtype).length + spliceIdx r.stop rs i := by
        simp [spliceIdx, hlt]
      rw [hidx]
      rw [List.getElem?_append]
      rw [if_neg (by simp only [List.length_append, hAlen]; omega)]
      have hsub : (r.start - pos) + (build_items r.indent r.vtype).length +
          spliceIdx r.stop rs i -
          (pySlice text pos r.start ++ build_items r.indent r.vtype).length =
          spliceIdx r.stop rs i := by
        simp only [List.length_append, hAlen]
        omega
      rw [hsub]
      exact ih r.stop i hrest hstop hilen (by rw [outsideB]; exact htail)

/-- Splicing an empty run list returns the input text (main's loop copies
the whole text when `groups` is empty). -/
theorem applyGroups_nil (text : Str) : applyGroups text [] = text := by
  show text.drop 0 = text
  exact List.drop_zero text

theorem spliceAux_last (text : Str) :
    ∀ (l : List Run) (pos : Nat) (r : Run), ∃ q,
      spliceAux text pos (l ++ [r]) =
        q ++ build_items r.indent r.vtype ++ text.drop r.stop := by
  intro l
  induction l with
  | nil =>
    intro pos r
    exact ⟨pySlice text pos r.start, rfl⟩
  | cons r0 l ih =>
    intro pos r
    obtain ⟨q', hq'⟩ := ih r0.stop r
    refine ⟨pySlice text pos r0.start ++ build_items r0.indent r0.vtype ++ q', ?_⟩
    show pySlice text pos r0.start ++ build_items r0.indent r0.vtype ++
        spliceAux text r0.stop (l ++ [r]) = _
    rw [hq']
    simp [List.append_assoc]

/-! ### Claims -/

/-- Claim C2: for every input text and every (ordered, in-bounds) list of
replaced run spans, every input position outside all replaced spans is
preserved byte-for-byte in the output at its corresponding shifted position,
and when the run list is empty the output equals the input unchanged. -/
theorem claim_C2 (text : Str) (runs : List Run) (i : Nat)
    (hsort : RunsSortedB text.length 0 runs = true)
    (hi : i < text.length) (hout : outsideB runs i = true) :
    applyGroups text [] = text ∧
    (applyGroups text runs)[spliceIdx 0 runs i]? = text[i]? :=
  ⟨applyGroups_nil text, spliceAux_frame text runs 0 i hsort (Nat.zero_le i) hi hout⟩

theorem claim_C2_witness :
    (RunsSortedB ("abcd".data : Str).length 0 [⟨1, 2, [], ['V']⟩] = true ∧
      3 < ("abcd".data : Str).length ∧ outsideB [⟨1, 2, [], ['V']⟩] 3 = true) ∧
    (applyGroups "abcd".data [] = "abcd".data ∧
      (applyGroups "abcd".data [⟨1, 2, [], ['V']⟩])[spliceIdx 0 [⟨1, 2, [], ['V']⟩] 3]? =
        ("abcd".data)[3]?) :=
  ⟨⟨by decide, by decide, by decide⟩,
    claim_C2 "abcd".data [⟨1, 2, [], ['V']⟩] 3 (by decide) (by decide) (by decide)⟩

/-- Claim C8: for every input text and policy, the runs produced by the
grouper are strictly ordered by position, pairwise non-overlapping (each
run starts at or after the previous run's end), and lie within the bounds
of the input text. -/
theorem claim_C8 (text : Str) (anyFlag : Bool) :
    RunsSortedB text.length 0 (groupRuns text anyFlag (scan_items text)) = true := by
  obtain ⟨hsort, _⟩ := scan_items_ok text
  exact groupAux_sorted text anyFlag text.length (scan_items text).length (scan_items text)
    0 (Nat.le_refl _) hsort (Nat.zero_le _)

/-- Claim C9: the core transformation is deterministic: two invocations on
equal input texts with equal policies return byte-identical new texts and
equal replaced-run counts. -/
theorem claim_C9 (text₁ text₂ : Str) (any₁ any₂ : Bool)
    (ht : text₁ = text₂) (ha : any₁ = any₂) :
    (normalizeText any₁ text₁).1 = (normalizeText any₂ text₂).1 ∧
    (normalizeText any₁ text₁).2 = (normalizeText any₂ text₂).2 := by
  subst ht; subst ha
  exact ⟨rfl, rfl⟩

theorem claim_C9_witness :
    (("<Item/>".data : Str) = "<Item/>".data ∧ (true : Bool) = true) ∧
    ((normalizeText true "<Item/>".data).1 = (normalizeText true "<Item/>".data).1 ∧
      (normalizeText true "<Item/>".data).2 = (normalizeText true "<Item/>".data).2) :=
  ⟨⟨rfl, rfl⟩, claim_C9 "<Item/>".data "<Item/>".data true true rfl rfl⟩

/-! ### The renderer: line structure of build_items -/

/-- Split a text into its lines at newline characters (each final newline
produces a trailing empty line, as the last element). -/
def splitNl : Str → List Str
  | [] => [[]]
  | c :: t =>
    if c = '\n' then [] :: splitNl t
    else
      match splitNl t with
      | [] => [[c]]
      | h :: r => (c :: h) :: r

/-- Join lines with a newline terminating each line. -/
def joinNl (L : List Str) : Str := (L.map (fun l => l ++ ['\n'])).flatten

/-- The contract's seven lines of one canonical `<Item>` block: given
indentation on every line, an empty identifier, the modifier value, the
constant audio-apply value, the constant zero weight, and the given type. -/
def blockLines (indent vtype : Str) (val : Nat) : List Str :=
  [indent ++ "<Item>".data,
   indent ++ "  <identifier />".data,
   indent ++ "  <modifier value=\"".data ++ (Nat.repr val).data ++ "\" />".data,
   indent ++ "  <audioApply value=\"1.000000\" />".data,
   indent ++ "  <weight value=\"0\" />".data,
   indent ++ "  <type>".data ++ vtype ++ "</type>".data,
   indent ++ "</Item>".data]

/-- `s` contains no newline character. -/
def noNl (s : Str) : Bool := s.all (fun c => !(c == '\n'))

theorem noNl_mem (s : Str) (h : noNl s = true) : ∀ c ∈ s, c ≠ '\n' := by
  intro c hc he
  simp only [noNl, List.all_eq_true] at h
  have := h c hc
  rw [he] at this
  simp at this

theorem splitNl_append_nl :
    ∀ (a b : Str), (∀ c ∈ a, c ≠ '\n') → splitNl (a ++ '\n' :: b) = a :: splitNl b := by
  intro a
  induction a with
  | nil => intro b _; simp [splitNl]
  | cons c a' ih =>
    intro b hno
    have hc : ¬(c = '\n') := hno c (List.mem_cons_self c a')
    simp only [List.cons_append, splitNl, List.append_eq]
    rw [if_neg hc, ih b (fun x hx => hno x (List.mem_cons_of_mem c hx))]

theorem splitNl_joinNl :
    ∀ (L : List Str) (rest : Str), (∀ l ∈ L, ∀ c ∈ l, c ≠ '\n') →
      splitNl (joinNl L ++ rest) = L ++ splitNl rest := by
  intro L
  induction L with
  | nil => intro rest _; simp [joinNl]
  | cons l L' ih =>
    intro rest h
    have hshape : joinNl (l :: L') ++ rest = l ++ '\n' :: (joinNl L' ++ rest) := by
      simp [joinNl, List.append_assoc]
    rw [hshape, splitNl_append_nl l _ (h l (List.mem_cons_self l L')),
      ih rest (fun l' hl' => h l' (List.mem_cons_of_mem l hl'))]
    rfl

theorem build_items_join (indent vtype : Str) :
    build_items indent vtype =
      joinNl (blockLines indent vtype 25 ++ blockLines indent vtype 50 ++
        blockLines indent vtype 75 ++ blockLines indent vtype 100) := by
  have h1 : "<Item>\n".data = "<Item>".data ++ ['\n'] := by decide
  have h2 : "  <identifier />\n".data = "  <identifier />".data ++ ['\n'] := by decide
  have h3 : "\" />\n".data = "\" />".data ++ ['\n'] := by decide
  have h4 : "  <audioApply value=\"1.000000\" />\n".data =
      "  <audioApply value=\"1.000000\" />".data ++ ['\n'] := by decide
  have h5 : "  <weight value=\"0\" />\n".data = "  <weight value=\"0\" />".data ++ ['\n'] := by
    decide
  have h6 : "</type>\n".data = "</type>".data ++ ['\n'] := by decide
  have h7 : "</Item>\n".data = "</Item>".data ++ ['\n'] := by decide
  simp [build_items, itemTemplate, blockLines, joinNl, h1, h2, h3, h4, h5, h6, h7,
    List.append_assoc]

theorem blockLines_no_nl (ind ty : Str) (val : Nat) (hni : ∀ c ∈ ind, c ≠ '\n')
    (hnv : ∀ c ∈ ty, c ≠ '\n') (hval : ∀ c ∈ (Nat.repr val).data, c ≠ '\n') :
    ∀ l ∈ blockLines ind ty val, ∀ c ∈ l, c ≠ '\n' := by
  intro l hl c hc
  simp only [blockLines, List.mem_cons, List.not_mem_nil, or_false] at hl
  rcases hl with rfl | rfl | rfl | rfl | rfl | rfl | rfl <;>
    simp only [List.mem_append] at hc
  · rcases hc with h | h
    · exact hni c h
    · exact (by decide : ∀ c ∈ "<Item>".data, c ≠ '\n') c h
  · rcases hc with h | h
    · exact hni c h
    · exact (by decide : ∀ c ∈ "  <identifier />".data, c ≠ '\n') c h
  · rcases hc with ((h | h) | h) | h
    · exact hni c h
    · exact (by decide : ∀ c ∈ "  <modifier value=\"".data, c ≠ '\n') c h
    · exact hval c h
    · exact (by decide : ∀ c ∈ "\" />".data, c ≠ '\n') c h
  · rcases hc with h | h
    · exact hni c h
    · exact (by decide : ∀ c ∈ "  <audioApply value=\"1.000000\" />".data, c ≠ '\n') c h
  · rcases hc with h | h
    · exact hni c h
    · exact (by decide : ∀ c ∈ "  <weight value=\"0\" />".data, c ≠ '\n') c h
  · rcases hc with ((h | h) | h) | h
    · exact hni c h
    · exact (by decide : ∀ c ∈ "  <type>".data, c ≠ '\n') c h
    · exact hnv c h
    · exact (by decide : ∀ c ∈ "</type>".data, c ≠ '\n') c h
  · rcases hc with h | h
    · exact hni c h
    · exact (by decide : ∀ c ∈ "</Item>".data, c ≠ '\n') c h

/-- Claim C4: the renderer is a pure function of (indent, type) producing
exactly four item blocks, one per modifier value in the fixed order
25, 50, 75, 100, each block consisting of the seven lines of `blockLines`
(empty identifier, the modifier value, the constant audio-apply value
1.000000, the constant weight 0, and the given type), every line prefixed
with the given indentation; equal inputs give byte-identical output. -/
theorem claim_C4 (indent vtype : Str) (hni : noNl indent = true) (hnv : noNl vtype = true) :
    splitNl (build_items indent vtype) =
      blockLines indent vtype 25 ++ blockLines indent vtype 50 ++
        blockLines indent vtype 75 ++ blockLines indent vtype 100 ++ [[]] ∧
    ∀ indent₂ vtype₂, indent = indent₂ → vtype = vtype₂ →
      build_items indent vtype = build_items indent₂ vtype₂ := by
  constructor
  · have hall : ∀ l ∈ blockLines indent vtype 25 ++ blockLines indent vtype 50 ++
        blockLines indent vtype 75 ++ blockLines indent vtype 100, ∀ c ∈ l, c ≠ '\n' := by
      intro l hl
      simp only [List.mem_append] at hl
      rcases hl with ((h | h) | h) | h
      · exact blockLines_no_nl indent vtype 25 (noNl_mem _ hni) (noNl_mem _ hnv)
          (by decide) l h
      · exact blockLines_no_nl indent vtype 50 (noNl_mem _ hni) (noNl_mem _ hnv)
          (by decide) l h
      · exact blockLines_no_nl indent vtype 75 (noNl_mem _ hni) (noNl_mem _ hnv)
          (by decide) l h
      · exact blockLines_no_nl indent vtype 100 (noNl_mem _ hni) (noNl_mem _ hnv)
          (by decide) l h
    have hsp := splitNl_joinNl (blockLines indent vtype 25 ++ blockLines indent vtype 50 ++
      blockLines indent vtype 75 ++ blockLines indent vtype 100) [] hall
    rw [List.append_nil] at hsp
    rw [build_items_join, hsp]
    simp [splitNl, List.append_assoc]
  · intro indent₂ vtype₂ h1 h2
    rw [h1, h2]

theorem claim_C4_witness :
    (noNl "  ".data = true ∧ noNl "VMT_ENGINE".data = true) ∧
    (splitNl (build_items "  ".data "VMT_ENGINE".data) =
      blockLines "  ".data "VMT_ENGINE".data 25 ++ blockLines "  ".data "VMT_ENGINE".data 50 ++
        blockLines "  ".data "VMT_ENGINE".data 75 ++
        blockLines "  ".data "VMT_ENGINE".data 100 ++ [[]] ∧
      ∀ indent₂ vtype₂, "  ".data = indent₂ → "VMT_ENGINE".data = vtype₂ →
        build_items "  ".data "VMT_ENGINE".data = build_items indent₂ vtype₂) :=
  ⟨⟨by decide, by decide⟩, claim_C4 "  ".data "VMT_ENGINE".data (by decide) (by decide)⟩

theorem groupAux_nil_of_noq (text : Str) (anyFlag : Bool) :
    ∀ (fuel : Nat) (l : List Item), (∀ it ∈ l, qualifies anyFlag it.vtype = false) →
      groupAux text anyFlag fuel l = [] := by
  intro fuel
  induction fuel with
  | zero => intro l _; rfl
  | succ fuel ih =>
    intro l h
    cases l with
    | nil => rfl
    | cons it rest =>
      have hq := h it (List.mem_cons_self it rest)
      simp only [groupAux, hq]
      simp only [Bool.false_eq_true, if_false]
      exact ih rest (fun b hb => h b (List.mem_cons_of_mem it hb))

/-- Claim C5: a block qualifies for starting a run iff its type is present
and nonempty, its upper-cased type starts with `VMT_` (so the original
starts with the prefix case-insensitively), and — unless the any-type
override is on — equals one of VMT_GEARBOX, VMT_BRAKES, VMT_ENGINE; every
produced run starts at a qualifying scanned block; under the unrestricted
policy VMT_CUSTOM_XYZ qualifies, under the restricted policy
VMT_SUSPENSION does not, and a text none of whose scanned blocks qualifies
is returned unchanged with zero replaced runs. -/
theorem claim_C5 (text : Str) (anyFlag : Bool) (v? : Option Str)
    (hnoq : ∀ it ∈ scan_items text, qualifies false it.vtype = false) :
    (qualifies anyFlag v? = true ↔
      ∃ v, v? = some v ∧ v ≠ [] ∧ leadsWith "VMT_".data (pyUpper v) = true ∧
        (anyFlag = true ∨ pyUpper v = "VMT_GEARBOX".data ∨ pyUpper v = "VMT_BRAKES".data ∨
          pyUpper v = "VMT_ENGINE".data)) ∧
    (∀ r ∈ groupRuns text anyFlag (scan_items text),
      ∃ it ∈ scan_items text, it.start = r.start ∧ qualifies anyFlag it.vtype = true) ∧
    qualifies true (some "VMT_CUSTOM_XYZ".data) = true ∧
    qualifies false (some "VMT_SUSPENSION".data) = false ∧
    (normalizeText false text).1 = text ∧ (normalizeText false text).2 = 0 := by
  refine ⟨?_, ?_, by decide, by decide, ?_, ?_⟩
  · cases v? with
    | none => simp [qualifies]
    | some v =>
      simp only [qualifies, Bool.and_eq_true, Bool.or_eq_true, beq_iff_eq, inTargets,
        Bool.not_eq_true', List.isEmpty_eq_false, Option.some.injEq]
      constructor
      · rintro ⟨⟨hne, hpre⟩, hpol⟩
        exact ⟨v, rfl, hne, hpre, by tauto⟩
      · rintro ⟨v', hv', hne, hpre, hpol⟩
        subst hv'
        exact ⟨⟨hne, hpre⟩, by tauto⟩
  · intro r hr
    obtain ⟨⟨it, hit, hst, _, hq, _⟩, _⟩ :=
      groupAux_provenance text anyFlag (scan_items text).length (scan_items text) r hr
    exact ⟨it, hit, hst, hq⟩
  · have hg : groupRuns text false (scan_items text) = [] :=
      groupAux_nil_of_noq text false (scan_items text).length (scan_items text) hnoq
    show applyGroups text (groupRuns text false (scan_items text)) = text
    rw [hg, applyGroups_nil]
  · have hg : groupRuns text false (scan_items text) = [] :=
      groupAux_nil_of_noq text false (scan_items text).length (scan_items text) hnoq
    show (groupRuns text false (scan_items text)).length = 0
    rw [hg]
    rfl

/-- A scenario-D style file: blocks typed VMT_SUSPENSION only. -/
def tSusp : Str := "  <Item>\n    <type>VMT_SUSPENSION</type>\n  </Item>\n".data

theorem claim_C5_witness :
    (∀ it ∈ scan_items tSusp, qualifies false it.vtype = false) ∧
    ((qualifies false (some "VMT_SUSPENSION".data) = true ↔
      ∃ v, some "VMT_SUSPENSION".data = some v ∧ v ≠ [] ∧
        leadsWith "VMT_".data (pyUpper v) = true ∧
        (false = true ∨ pyUpper v = "VMT_GEARBOX".data ∨ pyUpper v = "VMT_BRAKES".data ∨
          pyUpper v = "VMT_ENGINE".data)) ∧
    (∀ r ∈ groupRuns tSusp false (scan_items tSusp),
      ∃ it ∈ scan_items tSusp, it.start = r.start ∧ qualifies false it.vtype = true) ∧
    qualifies true (some "VMT_CUSTOM_XYZ".data) = true ∧
    qualifies false (some "VMT_SUSPENSION".data) = false ∧
    (normalizeText false tSusp).1 = tSusp ∧ (normalizeText false tSusp).2 = 0) :=
  ⟨by decide, claim_C5 tSusp false (some "VMT_SUSPENSION".data) (by decide)⟩

/-- Claim C7: every replaced run records as its type the upper-cased form of
its first block's trimmed type value, and that recorded value is the inner
type value of each of the four rendered replacement blocks. -/
theorem claim_C7 (text : Str) (anyFlag : Bool) (r : Run)
    (hr : r ∈ groupRuns text anyFlag (scan_items text)) :
    (∃ it ∈ scan_items text, it.start = r.start ∧
      ∃ t, it.vtype = some t ∧ pyStrip t = t ∧ r.vtype = pyUpper t) ∧
    ∀ v ∈ ([25, 50, 75, 100] : List Nat), ∃ p q,
      itemTemplate r.indent r.vtype v =
        p ++ ("<type>".data ++ r.vtype ++ "</type>".data) ++ q := by
  constructor
  · obtain ⟨⟨it, hit, hst, _, _, t, hvt, hup⟩, _⟩ :=
      groupAux_provenance text anyFlag (scan_items text).length (scan_items text) r hr
    obtain ⟨_, hok⟩ := scan_items_ok text
    obtain ⟨_, _, _, _, _, _, hty⟩ := hok it hit
    exact ⟨it, hit, hst, t, hvt, (hty t hvt).1, hup⟩
  · intro v _
    refine ⟨(r.indent ++ "<Item>\n".data) ++ (r.indent ++ "  <identifier />\n".data) ++
      (r.indent ++ "  <modifier value=\"".data ++ (Nat.repr v).data ++ "\" />\n".data) ++
      (r.indent ++ "  <audioApply value=\"1.000000\" />\n".data) ++
      (r.indent ++ "  <weight value=\"0\" />\n".data) ++ r.indent ++ "  ".data,
      '\n' :: (r.indent ++ "</Item>\n".data), ?_⟩
    have hsp1 : "  <type>".data = "  ".data ++ "<type>".data := by decide
    have hsp2 : "</type>\n".data = "</type>".data ++ ['\n'] := by decide
    simp [itemTemplate, hsp1, hsp2, List.append_assoc]

/-- Claim C10: every replaced span ends exactly at the closing `</Item>` of
the run's last block (whatever follows it in the input, such as a newline,
stays outside the span), the rendered replacement itself ends with
`</Item>` followed by a newline, and the output places the text from the
run's span end verbatim directly after the last run's rendered blocks — so
each replacement leaves one more newline after the canonical blocks than
the input had. -/
theorem claim_C10 (text : Str) (anyFlag : Bool) (r : Run)
    (hr : r ∈ groupRuns text anyFlag (scan_items text)) :
    (7 ≤ r.stop ∧ ciListEq (pySlice text (r.stop - 7) r.stop) closeItemPat = true) ∧
    (∃ p, build_items r.indent r.vtype = p ++ "</Item>\n".data) ∧
    (∀ init, groupRuns text anyFlag (scan_items text) = init ++ [r] →
      ∃ q, (normalizeText anyFlag text).1 =
        q ++ build_items r.indent r.vtype ++ text.drop r.stop) := by
  refine ⟨?_, ?_, ?_⟩
  · obtain ⟨_, it2, hit2, hstop⟩ :=
      groupAux_provenance text anyFlag (scan_items text).length (scan_items text) r hr
    obtain ⟨_, hok⟩ := scan_items_ok text
    obtain ⟨hlen, _, _, _, _, hclose, _⟩ := hok it2 hit2
    rw [hstop]
    exact ⟨by omega, hclose⟩
  · refine ⟨itemTemplate r.indent r.vtype 25 ++ itemTemplate r.indent r.vtype 50 ++
      itemTemplate r.indent r.vtype 75 ++
      (r.indent ++ "<Item>\n".data) ++ (r.indent ++ "  <identifier />\n".data) ++
      (r.indent ++ "  <modifier value=\"".data ++ (Nat.repr 100).data ++ "\" />\n".data) ++
      (r.indent ++ "  <audioApply value=\"1.000000\" />\n".data) ++
      (r.indent ++ "  <weight value=\"0\" />\n".data) ++
      (r.indent ++ "  <type>".data ++ r.vtype ++ "</type>\n".data) ++ r.indent, ?_⟩
    simp [build_items, itemTemplate, List.append_assoc]
  · intro init hinit
    obtain ⟨q, hq⟩ := spliceAux_last text init 0 r
    refine ⟨q, ?_⟩
    show applyGroups text (groupRuns text anyFlag (scan_items text)) = _
    rw [hinit]
    exact hq

/-- A one-run file whose type is written in lower case. -/
def tEng : Str := "<Item><type>vmt_engine</type></Item>".data

/-- The single run the grouper finds in `tEng`. -/
def rEng : Run := ⟨0, 36, [], "VMT_ENGINE".data⟩

theorem claim_C7_witness :
    (rEng ∈ groupRuns tEng false (scan_items tEng)) ∧
    ((∃ it ∈ scan_items tEng, it.start = rEng.start ∧
      ∃ t, it.vtype = some t ∧ pyStrip t = t ∧ rEng.vtype = pyUpper t) ∧
    ∀ v ∈ ([25, 50, 75, 100] : List Nat), ∃ p q,
      itemTemplate rEng.indent rEng.vtype v =
        p ++ ("<type>".data ++ rEng.vtype ++ "</type>".data) ++ q) :=
  ⟨by decide, claim_C7 tEng false rEng (by decide)⟩

theorem claim_C10_witness :
    (rEng ∈ groupRuns tEng false (scan_items tEng)) ∧
    ((7 ≤ rEng.stop ∧ ciListEq (pySlice tEng (rEng.stop - 7) rEng.stop) closeItemPat = true) ∧
    (∃ p, build_items rEng.indent rEng.vtype = p ++ "</Item>\n".data) ∧
    (∀ init, groupRuns tEng false (scan_items tEng) = init ++ [rEng] →
      ∃ q, (normalizeText false tEng).1 =
        q ++ build_items rEng.indent rEng.vtype ++ tEng.drop rEng.stop)) :=
  ⟨by decide, claim_C10 tEng false rEng (by decide)⟩

/-! ### The grouping equations behind claim C3 -/

theorem groupAux_fuel_eq (text : Str) (anyFlag : Bool) :
    ∀ (fuel : Nat) (l : List Item), l.length ≤ fuel →
      groupAux text anyFlag fuel l = groupAux text anyFlag l.length l := by
  intro fuel
  induction fuel using Nat.strong_induction_on with
  | _ fuel ih =>
    intro l hl
    cases fuel with
    | zero =>
      cases l with
      | nil => rfl
      | cons it rest => simp at hl
    | succ fuel =>
      cases l with
      | nil => rfl
      | cons it rest =>
        simp only [List.length_cons] at hl
        by_cases hq : qualifies anyFlag it.vtype = true
        · simp only [List.length_cons, groupAux, hq, if_true]
          have hrl := extendRun_rest_len text (pyUpper (it.vtype.getD [])) rest it.stop
          rw [ih fuel (by omega) _ (by omega),
            ih rest.length (by omega) _ (by omega)]
        · simp only [List.length_cons, groupAux, hq]
          simp only [Bool.false_eq_true, if_false]
          rw [ih fuel (by omega) rest (by omega),
            ih rest.length (by omega) rest (by omega)]

theorem groupRuns_cons (text : Str) (anyFlag : Bool) (it : Item) (rest : List Item) :
    groupRuns text anyFlag (it :: rest) =
      if qualifies anyFlag it.vtype then
        ⟨it.start, (extendRun text (pyUpper (it.vtype.getD [])) it.stop rest).1, it.indent,
          pyUpper (it.vtype.getD [])⟩ ::
          groupRuns text anyFlag (extendRun text (pyUpper (it.vtype.getD [])) it.stop rest).2
      else groupRuns text anyFlag rest := by
  show groupAux text anyFlag (rest.length + 1) (it :: rest) = _
  by_cases hq : qualifies anyFlag it.vtype = true
  · simp only [groupAux, hq, if_true]
    congr 1
    exact groupAux_fuel_eq text anyFlag rest.length _
      (extendRun_rest_len text (pyUpper (it.vtype.getD [])) rest it.stop)
  · simp only [groupAux, hq]
    simp only [Bool.false_eq_true, if_false]
    exact groupAux_fuel_eq text anyFlag rest.length rest (Nat.le_refl _)

theorem extendCond_false_of_ws (text vt : Str) (ge : Nat) (b : Item)
    (hws : allWsB (pySlice text ge b.start) = false) : extendCond text vt ge b = false := by
  unfold extendCond
  cases b.vtype with
  | none => rfl
  | some t2 => rw [hws]; simp

theorem extendRun_chain (text vt : Str) :
    ∀ (items : List Item) (a : Item),
      List.Chain (fun x y => extendCond text vt x.stop y = true) a items →
      extendRun text vt a.stop items = ((items.getLastD a).stop, []) := by
  intro items
  induction items with
  | nil => intro a _; rfl
  | cons b rest ih =>
    intro a hch
    rw [List.chain_cons] at hch
    obtain ⟨h1, h2⟩ := hch
    show extendRun text vt a.stop (b :: rest) = _
    simp only [extendRun, h1, if_true]
    rw [ih b h2, List.getLastD_cons]

theorem extendRun_rest_suffix (text vt : Str) :
    ∀ (l : List Item) (ge : Nat), (extendRun text vt ge l).2 <:+ l := by
  intro l
  induction l with
  | nil => intro ge; simp [extendRun]
  | cons a rest ih =>
    intro ge
    by_cases hc : extendCond text vt ge a = true
    · simp only [extendRun, hc, if_true]
      exact (ih a.stop).trans (List.suffix_cons a rest)
    · simp only [extendRun, hc]
      simp only [Bool.false_eq_true, if_false]
      exact List.suffix_refl _

theorem getLast?_of_suffix (l' l : List Item) (h : l' <:+ l) (hne : l' ≠ []) :
    l'.getLast? = l.getLast? := by
  obtain ⟨t, ht⟩ := h
  rw [← ht]
  exact (List.getLast?_append_of_ne_nil t hne).symm

theorem extendRun_append (text vt : Str) :
    ∀ (l1 : List Item) (x y : Item) (l2 : List Item) (ge : Nat),
      l1.getLast? = some x → l2.head? = some y →
      allWsB (pySlice text x.stop y.start) = false →
      extendRun text vt ge (l1 ++ l2) =
        ((extendRun text vt ge l1).1, (extendRun text vt ge l1).2 ++ l2) := by
  intro l1
  induction l1 with
  | nil => intro x y l2 ge hx _ _; simp at hx
  | cons a l1' ih =>
    intro x y l2 ge hx hy hws
    cases l1' with
    | nil =>
      simp only [List.getLast?_singleton, Option.some.injEq] at hx
      subst hx
      cases l2 with
      | nil => simp at hy
      | cons y' l2' =>
        simp only [List.head?_cons, Option.some.injEq] at hy
        subst hy
        by_cases hc : extendCond text vt ge a = true
        · have hyf : extendCond text vt a.stop y' = false :=
            extendCond_false_of_ws text vt a.stop y' hws
          simp only [List.singleton_append, extendRun, hc, if_true, hyf]
          simp [Bool.false_eq_true, if_false, extendRun]
        · simp only [List.singleton_append, extendRun, hc]
          simp [Bool.false_eq_true, if_false]
    | cons b l1'' =>
      have hx' : (b :: l1'').getLast? = some x :=
        (List.getLast?_cons_cons).symm.trans hx
      by_cases hc : extendCond text vt ge a = true
      · simp only [List.cons_append, extendRun, hc, if_true]
        exact ih x y l2 a.stop hx' hy hws
      · simp only [List.cons_append, extendRun, hc]
        simp [Bool.false_eq_true, if_false]

theorem groupRuns_nil (text : Str) (anyFlag : Bool) : groupRuns text anyFlag [] = [] := rfl

theorem groupRuns_cons_q (text : Str) (anyFlag : Bool) (it : Item) (rest : List Item)
    (hq : qualifies anyFlag it.vtype = true) :
    groupRuns text anyFlag (it :: rest) =
      ⟨it.start, (extendRun text (pyUpper (it.vtype.getD [])) it.stop rest).1, it.indent,
        pyUpper (it.vtype.getD [])⟩ ::
        groupRuns text anyFlag (extendRun text (pyUpper (it.vtype.getD [])) it.stop rest).2 := by
  rw [groupRuns_cons, if_pos hq]

theorem groupRuns_cons_skip (text : Str) (anyFlag : Bool) (it : Item) (rest : List Item)
    (hq : ¬qualifies anyFlag it.vtype = true) :
    groupRuns text anyFlag (it :: rest) = groupRuns text anyFlag rest := by
  rw [groupRuns_cons, if_neg hq]

theorem groupRuns_append (text : Str) (anyFlag : Bool) :
    ∀ (l1 : List Item) (x y : Item) (l2 : List Item),
      l1.getLast? = some x → l2.head? = some y →
      allWsB (pySlice text x.stop y.start) = false →
      groupRuns text anyFlag (l1 ++ l2) =
        groupRuns text anyFlag l1 ++ groupRuns text anyFlag l2 := by
  suffices H : ∀ (n : Nat) (l1 : List Item), l1.length = n → ∀ (x y : Item) (l2 : List Item),
      l1.getLast? = some x → l2.head? = some y →
      allWsB (pySlice text x.stop y.start) = false →
      groupRuns text anyFlag (l1 ++ l2) =
        groupRuns text anyFlag l1 ++ groupRuns text anyFlag l2 by
    intro l1 x y l2 hx hy hws
    exact H l1.length l1 rfl x y l2 hx hy hws
  intro n
  induction n using Nat.strong_induction_on with
  | _ n ih =>
    intro l1 hn x y l2 hx hy hws
    cases l1 with
    | nil => simp at hx
    | cons it rest =>
      cases l2 with
      | nil => simp at hy
      | cons y' l2' =>
        simp only [List.head?_cons, Option.some.injEq] at hy
        subst hy
        by_cases hq : qualifies anyFlag it.vtype = true
        · cases rest with
          | nil =>
            simp only [List.getLast?_singleton, Option.some.injEq] at hx
            subst hx
            have hyf : extendCond text (pyUpper (it.vtype.getD [])) it.stop y' = false :=
              extendCond_false_of_ws text _ it.stop y' hws
            have hstep : extendRun text (pyUpper (it.vtype.getD [])) it.stop (y' :: l2') =
                (it.stop, y' :: l2') := by
              show (if extendCond text (pyUpper (it.vtype.getD [])) it.stop y' = true
                then extendRun text (pyUpper (it.vtype.getD [])) y'.stop l2'
                else (it.stop, y' :: l2')) = _
              rw [hyf]
              simp
            rw [List.singleton_append, groupRuns_cons_q text anyFlag it (y' :: l2') hq,
              groupRuns_cons_q text anyFlag it [] hq, hstep]
            rfl
          | cons b rest' =>
            have hx' : (b :: rest').getLast? = some x :=
              (List.getLast?_cons_cons).symm.trans hx
            have hext := extendRun_append text (pyUpper (it.vtype.getD [])) (b :: rest')
              x y' (y' :: l2') it.stop hx' (by simp) hws
            rw [List.cons_append,
              groupRuns_cons_q text anyFlag it ((b :: rest') ++ (y' :: l2')) hq,
              groupRuns_cons_q text anyFlag it (b :: rest') hq, hext, List.cons_append]
            congr 1
            set p := extendRun text (pyUpper (it.vtype.getD [])) it.stop (b :: rest') with hp
            by_cases hp2 : p.2 = []
            · rw [hp2]
              simp [groupRuns_nil]
            · have hsuf : p.2 <:+ (b :: rest') :=
                extendRun_rest_suffix text _ (b :: rest') it.stop
              have hlast : p.2.getLast? = some x := by
                rw [getLast?_of_suffix p.2 (b :: rest') hsuf hp2]
                exact hx'
              have hlen : p.2.length < n := by
                have h1 := extendRun_rest_len text (pyUpper (it.vtype.getD []))
                  (b :: rest') it.stop
                rw [← hp] at h1
                simp only [List.length_cons] at h1 hn
                omega
              exact ih p.2.length hlen p.2 rfl x y' (y' :: l2') hlast (by simp) hws
        · cases rest with
          | nil =>
            rw [List.singleton_append, groupRuns_cons_skip text anyFlag it (y' :: l2') hq,
              groupRuns_cons_skip text anyFlag it [] hq]
            rfl
          | cons b rest' =>
            have hx' : (b :: rest').getLast? = some x :=
              (List.getLast?_cons_cons).symm.trans hx
            rw [List.cons_append,
              groupRuns_cons_skip text anyFlag it ((b :: rest') ++ (y' :: l2')) hq,
              groupRuns_cons_skip text anyFlag it (b :: rest') hq]
            have hlen : (b :: rest').length < n := by
              simp only [List.length_cons] at hn ⊢
              omega
            exact ih (b :: rest').length hlen (b :: rest') rfl x y' (y' :: l2') hx' (by simp) hws

/-- Claim C3: (merge) a qualifying block followed by a chain of blocks each
satisfying the extension test — type equal to the run's type once trimmed
and upper-cased, and only whitespace strictly between the run's current end
and the block's start — collapses into one run from the first block's start
to the last block's end; (split) any non-whitespace text between the last
block of one segment and the first block of the next makes the grouper
treat the segments independently; (stop) a block failing the extension test
ends the run at the previous block and itself becomes the next candidate. -/
theorem claim_C3 (text : Str) (anyFlag : Bool) :
    (∀ (a : Item) (items : List Item),
      qualifies anyFlag a.vtype = true →
      List.Chain (fun x y => extendCond text (pyUpper (a.vtype.getD [])) x.stop y = true)
        a items →
      groupRuns text anyFlag (a :: items) =
        [⟨a.start, (items.getLastD a).stop, a.indent, pyUpper (a.vtype.getD [])⟩]) ∧
    (∀ (l1 : List Item) (x y : Item) (l2 : List Item),
      l1.getLast? = some x → l2.head? = some y →
      allWsB (pySlice text x.stop y.start) = false →
      groupRuns text anyFlag (l1 ++ l2) =
        groupRuns text anyFlag l1 ++ groupRuns text anyFlag l2) ∧
    (∀ (a b : Item) (rest : List Item),
      qualifies anyFlag a.vtype = true →
      extendCond text (pyUpper (a.vtype.getD [])) a.stop b = false →
      groupRuns text anyFlag (a :: b :: rest) =
        ⟨a.start, a.stop, a.indent, pyUpper (a.vtype.getD [])⟩ ::
          groupRuns text anyFlag (b :: rest)) := by
  refine ⟨?_, groupRuns_append text anyFlag, ?_⟩
  · intro a items hq hch
    rw [groupRuns_cons_q text anyFlag a items hq,
      extendRun_chain text (pyUpper (a.vtype.getD [])) items a hch]
    rfl
  · intro a b rest hq hbf
    have hstep : extendRun text (pyUpper (a.vtype.getD [])) a.stop (b :: rest) =
        (a.stop, b :: rest) := by
      show (if extendCond text (pyUpper (a.vtype.getD [])) a.stop b = true
        then extendRun text (pyUpper (a.vtype.getD [])) b.stop rest
        else (a.stop, b :: rest)) = _
      rw [hbf]
      simp
    rw [groupRuns_cons_q text anyFlag a (b :: rest) hq, hstep]

/-- Two same-typed blocks separated by a newline only. -/
def tMerge : Str := "<Item><type>VMT_A</type></Item>\n<Item><type>vmt_a</type></Item>".data

/-- Two same-typed blocks separated by a non-whitespace character. -/
def tSplit : Str := "<Item><type>VMT_A</type></Item>x<Item><type>vmt_a</type></Item>".data

def iA : Item := ⟨0, 31, [], some "VMT_A".data⟩

def iB : Item := ⟨32, 63, [], some "vmt_a".data⟩

def iC : Item := ⟨32, 63, [], some "VMT_B".data⟩

theorem claim_C3_witness :
    (qualifies true iA.vtype = true ∧
      List.Chain (fun x y => extendCond tMerge (pyUpper (iA.vtype.getD [])) x.stop y = true)
        iA [iB] ∧
      groupRuns tMerge true [iA, iB] =
        [⟨iA.start, (([iB] : List Item).getLastD iA).stop, iA.indent,
          pyUpper (iA.vtype.getD [])⟩]) ∧
    (([iA] : List Item).getLast? = some iA ∧ ([iB] : List Item).head? = some iB ∧
      allWsB (pySlice tSplit iA.stop iB.start) = false ∧
      groupRuns tSplit true ([iA] ++ [iB]) =
        groupRuns tSplit true [iA] ++ groupRuns tSplit true [iB]) ∧
    (extendCond tMerge (pyUpper (iA.vtype.getD [])) iA.stop iC = false ∧
      groupRuns tMerge true [iA, iC] =
        ⟨iA.start, iA.stop, iA.indent, pyUpper (iA.vtype.getD [])⟩ ::
          groupRuns tMerge true [iC]) :=
  ⟨⟨by decide, List.Chain.cons (by decide) List.Chain.nil,
      (claim_C3 tMerge true).1 iA [iB] (by decide)
        (List.Chain.cons (by decide) List.Chain.nil)⟩,
    ⟨by decide, by decide, by decide,
      (claim_C3 tSplit true).2.1 [iA] iA iB [iB] (by decide) (by decide) (by decide)⟩,
    ⟨by decide,
      (claim_C3 tMerge true).2.2 iA iC [] (by decide) (by decide)⟩⟩

/-! ### Claims C1 and C6: counterexamples and amended statements -/

/-- A minimal one-run input for the idempotence question. -/
def tIdem : Str := "<Item><type>VMT_A</type></Item>".data

/-- Claim C1 counterexample: applying the core transformation to its own
output is not the identity — on `tIdem` the second application's output
differs from its input. -/
theorem claim_C1_counterexample :
    (normalizeText true ((normalizeText true tIdem).1)).1 ≠ (normalizeText true tIdem).1 := by
  decide

/-- Claim C1 amended: the transformation is not byte-idempotent; re-running
it on the canonicalized output of `tIdem` detects the four canonical blocks
as one run again and re-renders them identically, but appends one extra
newline after the run (the replaced span ends at the final `</Item>` while
the rendered text ends in a newline), so the second output is the first
output plus exactly one newline. -/
theorem claim_C1_amended :
    (normalizeText true ((normalizeText true tIdem).1)).1 =
      (normalizeText true tIdem).1 ++ ['\n'] ∧
    (normalizeText true ((normalizeText true tIdem).1)).2 = 1 :=
  ⟨by decide, by decide⟩

/-- Claim C6 counterexample: the scanner does not find every
`<Item>...</Item>` element regardless of what precedes the opening tag on
its line — prefixing a single non-whitespace character on the tag's line
makes an otherwise scanned element disappear from the scan. -/
theorem claim_C6_counterexample :
    scan_items ("x".data ++ "<Item><type>VMT_ENGINE</type></Item>".data) = [] ∧
    scan_items "<Item><type>VMT_ENGINE</type></Item>".data ≠ [] :=
  ⟨by decide, by decide⟩

/-- Claim C6 amended: the scanned blocks are in document order and
non-overlapping; each block's captured indent consists of spaces and tabs
only and is exactly the text from the block's start covering its length;
every scanned block starts at a line start with the (case-insensitive)
`<Item` opening tag directly after the indent — so an element whose opening
tag is preceded on its line by anything other than spaces and tabs is not
scanned. -/
theorem claim_C6_amended (text : Str) :
    ItemsSorted text.length 0 (scan_items text) ∧
    ∀ b ∈ scan_items text,
      (∀ c ∈ b.indent, isSpaceTab c = true) ∧
      pySlice text b.start (b.start + b.indent.length) = b.indent ∧
      lineStart text b.start ∧
      ciListEq (pySlice text (b.start + b.indent.length) (b.start + b.indent.length + 5))
        openItemPat = true := by
  obtain ⟨hsort, hok⟩ := scan_items_ok text
  refine ⟨hsort, ?_⟩
  intro b hb
  obtain ⟨_, hind, hslice, hls, hopen, _, _⟩ := hok b hb
  exact ⟨hind, hslice, hls, hopen⟩

/-- The single block scanned from `tEng`. -/
def bEng : Item := ⟨0, 36, [], some "vmt_engine".data⟩

theorem claim_C6_amended_witness :
    (bEng ∈ scan_items tEng) ∧
    ((∀ c ∈ bEng.indent, isSpaceTab c = true) ∧
      pySlice tEng bEng.start (bEng.start + bEng.indent.length) = bEng.indent ∧
      lineStart tEng bEng.start ∧
      ciListEq (pySlice tEng (bEng.start + bEng.indent.length)
        (bEng.start + bEng.indent.length + 5)) openItemPat = true) :=
  ⟨by decide, (claim_C6_amended tEng).2 bEng (by decide)⟩
